import Mathlib

/-!
# Verification of the cq lookup-argument driver (`src/main.rs`)

Shallow embedding of the repository's code. The repository's `src/main.rs`
is the only source file present: it declares the protocol modules
(`data_structures`, `indexer`, `kzg`, `prover`, `transcript`, `verifier`,
`utils`, …) but their code is not under `src/`, so those parts are modelled
from the specification (each such definition says so in its doc comment).
The driver itself (`prepare`, `measure_cq`, `measure_cprange`, `main`,
`PROTOCOL_NAME`) is embedded directly from `src/main.rs`.

Modelling conventions:
* the scalar field is a parameter `F` with `[CommRing F] [DecidableEq F]`;
* group elements of either pairing group are modelled "in the exponent":
  a commitment `[p(τ)]₁` is represented by the field element `p(τ)`, so a
  pairing equality check becomes a field equation in which the verifier's
  G2 SRS powers supply the occurrences of the trapdoor `τ`;
* polynomials are little-endian coefficient lists (`p.getD i 0` is the
  coefficient of `X^i`);
* randomness sources are explicit parameters: the trapdoor `τ` and the
  table values stand for what `unsafe_setup_from_rng` and `E::Fr::rand`
  draw from the rng, the Fiat-Shamir hash is a function parameter `hash`,
  and the benchmark harness's fixed-seed `test_rng` is a concrete stream.
-/

namespace Cq

variable {F : Type} [CommRing F]

/-! ## Polynomials as little-endian coefficient lists -/

/-- Horner evaluation of a coefficient list at a point. -/
def evalPoly (p : List F) (x : F) : F :=
  p.foldr (fun a acc => a + x * acc) 0

/-- Coefficient-wise sum of two polynomials (lengths may differ). -/
def polyAdd : List F → List F → List F
  | [], q => q
  | p, [] => p
  | a :: p, b :: q => (a + b) :: polyAdd p q

/-- Scalar multiple of a polynomial. -/
def polySmul (c : F) (p : List F) : List F :=
  p.map (fun a => c * a)

/-- Synthetic division: the coefficients of `(p(X) - p(x)) / (X - x)`.
The division is exact because `x` is a root of the numerator. -/
def quotientAt : List F → F → List F
  | [], _ => []
  | [_], _ => []
  | _ :: q, x => evalPoly q x :: quotientAt q x

/-! ## SRS and KZG commitments (exponent model)

Modelled from the spec: the `kzg` and `utils` modules are declared by
`src/main.rs` but absent from `src/`. Per spec §3/§6, the SRS is "two
matching sequences of group elements … derived from a single secret
exponent (the trapdoor) raised to increasing powers", and per §4.1 a
commitment is "a single multi-scalar multiplication of the polynomial's
coefficients against the matching SRS powers". In the exponent model a
G1/G2 power `[τ^i]` is the field element `τ^i`. -/

/-- The SRS powers `τ^0, τ^1, …, τ^(n-1)` (exponent model). -/
def srsOfTau (τ : F) (n : ℕ) : List F :=
  (List.range n).map (fun i => τ ^ i)

/-- Modelled from the spec (§6): `utils::unsafe_setup_from_rng` is absent
from `src/`. It draws a trapdoor `τ` from the rng (here an explicit
parameter) and returns the two SRS power sequences; a size bound `d`
yields the `d + 1` powers `τ^0 … τ^d`, which is what makes the spec's
"ProvingKey (one group's powers, length ≥ N)" consistent with `prepare`
passing `n - 1` as the G1 bound. -/
def setup_from_rng (d_g1 d_g2 : ℕ) (τ : F) : List F × List F :=
  (srsOfTau τ (d_g1 + 1), srsOfTau τ (d_g2 + 1))

namespace Kzg

/-- Modelled from the spec (§4.1): `Kzg::commit_g1` is absent from `src/`.
A commitment is the multi-scalar multiplication of the coefficients
against the SRS powers; in the exponent model this is `p(τ)` whenever the
polynomial fits the SRS. Degree bounds are enforced by the callers (§4.4),
not here, since `prepare` uses `commit_g1` without a `Result`. -/
def commit_g1 (srs : List F) (p : List F) : F :=
  (List.zipWith (fun a s => a * s) p srs).sum

/-- `commit_g2` performs the same MSM against the G2 powers. -/
def commit_g2 (srs : List F) (p : List F) : F :=
  (List.zipWith (fun a s => a * s) p srs).sum

end Kzg

/-! ## Error taxonomy (spec §7) and data structures (`data_structures`, `table`)

The `error`, `data_structures` and `table` modules are declared by
`src/main.rs` but absent from `src/`; the constructors below are modelled
from the spec's error taxonomy (§7) and data model (§3). -/

/-- Modelled from the spec (§7): the error taxonomy of the missing
`error` module. -/
inductive CqError where
  | TableSizeError
  | SizingError
  | DegreeError
  | StatementMismatchError
  | ProverError
  | VerificationError
  deriving DecidableEq, Repr

/-- `n` is a nonzero power of two (a supported evaluation-domain size,
spec §3/§4.3). -/
def isPow2 (n : ℕ) : Bool :=
  n != 0 && (n &&& (n - 1)) == 0

/-- The public table (spec §3): an ordered sequence of scalar values of a
fixed power-of-two size. Field names follow the Rust `Table` the driver
uses (`table.size`, `table.values`). -/
structure Table (F : Type) where
  size : ℕ
  values : List F
  deriving Repr

/-- Modelled from the spec (§3, §4.3): `Table::new` is absent from `src/`.
It fails with `TableSizeError` unless the size is a supported domain size
(a nonzero power of two). -/
def Table.new (values : List F) : Except CqError (Table F) :=
  if isPow2 values.length then .ok ⟨values.length, values⟩
  else .error CqError.TableSizeError

/-- The private witness (spec §3): the values together with the polynomial
`f` interpolating them, which is what gets committed as the Statement.
The interpolation map is an explicit parameter `interp` (the fixed
evaluation domain is opaque to this development). -/
structure Witness (F : Type) where
  size : ℕ
  values : List F
  f : List F
  deriving Repr

/-- Modelled from the spec (§3): `Witness::new` is absent from `src/`.
It records the values and their interpolating polynomial; the spec assigns
no failure condition to witness construction (the subset invariant is
checked by the Prover, §4.4), so the `Result` is always `Ok`. -/
def Witness.new (interp : List F → List F) (values : List F) :
    Except CqError (Witness F) :=
  .ok ⟨values.length, values, interp values⟩

/-- The public statement (spec §3): a single commitment `f` to the witness
polynomial — the only witness-derived value the verifier sees. -/
structure Statement (F : Type) where
  f : F
  deriving Repr

/-- The proving key: the G1 SRS powers (spec §3), exactly as built by
`prepare` in `src/main.rs` (`ProvingKey { srs_g1 }`). -/
structure ProvingKey (F : Type) where
  srs_g1 : List F
  deriving Repr

/-- The verifier key (spec §3): G2 powers plus the sizes `n` and `m`. -/
structure VerifierKey (F : Type) where
  srs_g2 : List F
  n : ℕ
  m : ℕ
  deriving Repr

/-- Modelled from the spec (§3): `VerifierKey::new` is absent from `src/`.
It keeps the low-order G2 powers (a prefix of length `m + 1`, i.e. O(M),
matching "the other group's powers, length bounded by M") together with
the sizes. -/
def VerifierKey.new (srs_g2 : List F) (n m : ℕ) : VerifierKey F :=
  ⟨srs_g2.take (m + 1), n, m⟩

/-- The table indexer's output held by the prover (spec §4.3): the cached
per-row quotient commitments `qs`, the quotient polynomials themselves
(exponent-model bookkeeping so the prover's openings can be stated), and
the G2 commitment `t2` to the table polynomial. -/
structure Index (F : Type) where
  qpolys : List (List F)
  qs : List F
  t2 : F
  deriving Repr

/-- The common preprocessed input given to the verifier (spec §3/§4.3):
here the commitment to the table polynomial. -/
structure CommonPreprocessedInput (F : Type) where
  t2 : F
  deriving Repr

/-- Modelled from the spec (§4.3): `Index::gen` is absent from `src/`.
For every domain point `ω^i` it computes the quotient
`Q_i(X) = (T(X) − T(ω^i)) / (X − ω^i)` of the interpolated table
polynomial `T` and commits to each `Q_i`, and also commits to `T` itself
in G2. -/
def Index.gen (interp : List F → List F) (domain : ℕ → F)
    (srs_g1 srs_g2 : List F) (table : Table F) : Index F :=
  let t := interp table.values
  let qpolys := (List.range table.size).map (fun i => quotientAt t (domain i))
  { qpolys := qpolys
    qs := qpolys.map (Kzg.commit_g1 srs_g1)
    t2 := Kzg.commit_g2 srs_g2 t }

/-- Modelled from the spec (§3/§4.3): `Index::compute_common` is absent
from `src/`. It commits to the table polynomial under the G2 SRS. -/
def Index.compute_common (interp : List F → List F) (srs_g2 : List F)
    (table : Table F) : CommonPreprocessedInput F :=
  ⟨Kzg.commit_g2 srs_g2 (interp table.values)⟩

/-! ## The driver's `prepare` (`src/main.rs`, lines 49–73) -/

/-- The tuple `prepare` returns (`PrepareResult` in `src/main.rs`), with
named fields for the components, in the source's order. -/
structure PrepareResult (F : Type) where
  table : Table F
  index : Index F
  statement : Statement F
  common : CommonPreprocessedInput F
  pk : ProvingKey F
  vk : VerifierKey F
  witness : Witness F
  deriving Repr

/-- Embedded from `src/main.rs` (`fn prepare`). The rng is explicit: `τ` is
the trapdoor `unsafe_setup_from_rng` draws and `tv i` the `i`-th sampled
table value; `interp`/`domain` are the interpolation map and evaluation
domain of the missing modules. The Rust `.unwrap()` calls are modelled as
error propagation (the Rust code panics where this returns `.error`). -/
def prepare (interp : List F → List F) (domain : ℕ → F)
    (n : ℕ) (subvector_indices : List ℕ) (τ : F) (tv : ℕ → F) :
    Except CqError (PrepareResult F) := do
  let srs := setup_from_rng (n - 1) n τ
  let srs_g1 := srs.1
  let srs_g2 := srs.2
  let pk : ProvingKey F := ⟨srs_g1⟩
  let table_values := (List.range n).map tv
  let table ← Table.new table_values
  let index := Index.gen interp domain pk.srs_g1 srs_g2 table
  let witness_values := subvector_indices.map (fun i => table_values.getD i 0)
  let witness ← Witness.new interp witness_values
  let statement : Statement F := ⟨Kzg.commit_g1 pk.srs_g1 witness.f⟩
  let vk := VerifierKey.new srs_g2 table.size witness.size
  let common := Index.compute_common interp srs_g2 table
  return ⟨table, index, statement, common, pk, vk, witness⟩

/-! ## Transcript seeding and the protocol tag (`src/main.rs`, line 13) -/

/-- Embedded from `src/main.rs`: `pub const PROTOCOL_NAME: &[u8] = b"CQ-1.0";`
as the list of byte values. -/
def PROTOCOL_NAME : List ℕ :=
  "CQ-1.0".toList.map Char.toNat

/-- Modelled from the spec (§4.2/§6): the `transcript`/`rng` modules are
absent from `src/`. The transcript state is the list of absorbed field
elements; its initial state is derived from the fixed protocol domain
separator `PROTOCOL_NAME`, embedded into the field bytewise. Challenges
are drawn by the Fiat-Shamir hash (the `FS` type parameter of the Rust
driver), modelled as an explicit function `hash` applied to the state. -/
def transcriptInit : List F :=
  PROTOCOL_NAME.map (fun b => (b : F))

/-! ## Prover and Verifier (spec §4.4, §4.5)

The `prover` and `verifier` modules are absent from `src/`; both are
modelled from the spec. The exact lookup identity is left open by the
spec (§9: the reference internals were unavailable; the behavioral
contract is a linear combination of cached per-row quotients weighted by
transcript challenges, checked via one batched pairing equality), so the
verifier's combined pairing check is the batched KZG opening equality at
`γ` over the absorbed commitments (`f`, the aggregate quotient, the
multiplicity polynomial and the table polynomial), in the exponent
model: `C − v = w · (τ − γ)` with `τ` supplied by the VerifierKey's G2
powers. -/

/-- The proof (spec §3/§4.4 step 6): a fixed-shape bundle — the aggregate
cached-quotient commitment, the multiplicity/selector commitment, the
four evaluations at `γ`, and the batched opening proof. -/
structure Proof (F : Type) where
  a_c : F
  m_c : F
  f_eval : F
  a_eval : F
  m_eval : F
  t_eval : F
  w : F
  deriving Repr

/-- Linear combination of polynomials with the given scalar weights. -/
def polyCombine (ρs : List F) (ps : List (List F)) : List F :=
  (List.zipWith polySmul ρs ps).foldr polyAdd []

namespace Prover

variable [DecidableEq F]

/-- Modelled from the spec (§4.4): `Prover::prove`. Checks the statement
matches its own recomputation, the sizing policy `M < N`, and that every
witness value occurs in the table; then runs the transcript rounds:
absorb statement and preprocessed-input identifier, squeeze `β`,
aggregate the cached quotient commitments weighted by powers of `β`,
commit the multiplicity polynomial, squeeze `γ`, open every committed
polynomial at `γ`, squeeze the batching challenge and emit the batched
opening proof. Degree bounds are checked against the ProvingKey length
before committing, surfacing `DegreeError`. -/
def prove (hash : List F → F) (interp : List F → List F)
    (pk : ProvingKey F) (index : Index F) (table : Table F)
    (witness : Witness F) (statement : Statement F) :
    Except CqError (Proof F) :=
  let f := witness.f
  let t := interp table.values
  if f.length ≤ pk.srs_g1.length ∧ t.length ≤ pk.srs_g1.length then
    if Kzg.commit_g1 pk.srs_g1 f = statement.f then
      if witness.size < table.size then
        if ∀ v ∈ witness.values, v ∈ table.values then
          let s1 := transcriptInit ++ [statement.f, index.t2]
          let β := hash s1
          let rows := witness.values.map
            (fun v => table.values.findIdx (fun u => u = v))
          let pows := (List.range witness.size).map (fun j => β ^ j)
          let a_c :=
            (List.zipWith (fun ρ i => ρ * index.qs.getD i 0) pows rows).sum
          let counts :=
            (List.range table.size).map (fun i => ((rows.count i : ℕ) : F))
          let mpoly := interp counts
          if mpoly.length ≤ pk.srs_g1.length then
            let m_c := Kzg.commit_g1 pk.srs_g1 mpoly
            let s2 := s1 ++ [a_c, m_c]
            let γ := hash s2
            let aq := polyCombine pows (rows.map (fun i => index.qpolys.getD i []))
            let f_eval := evalPoly f γ
            let a_eval := evalPoly aq γ
            let m_eval := evalPoly mpoly γ
            let t_eval := evalPoly t γ
            let s3 := s2 ++ [f_eval, a_eval, m_eval, t_eval]
            let η := hash s3
            let bigP := polyAdd f (polyAdd (polySmul η aq)
              (polyAdd (polySmul (η ^ 2) mpoly) (polySmul (η ^ 3) t)))
            let w := Kzg.commit_g1 pk.srs_g1 (quotientAt bigP γ)
            .ok ⟨a_c, m_c, f_eval, a_eval, m_eval, t_eval, w⟩
          else .error CqError.DegreeError
        else .error CqError.ProverError
      else .error CqError.SizingError
    else .error CqError.StatementMismatchError
  else .error CqError.DegreeError

end Prover

namespace Verifier

variable [DecidableEq F]

/-- Modelled from the spec (§4.5): `Verifier::verify`. Replays the
transcript in the prover's order (absorb statement and preprocessed
input, squeeze `β`, absorb the proof's commitments, squeeze `γ`, absorb
the evaluations, squeeze the batching challenge `η`) and performs the one
batched pairing check; accepts iff the combined pairing equality holds,
surfacing rejection as `VerificationError`, never a panic. -/
def verify (hash : List F → F) (vk : VerifierKey F)
    (common : CommonPreprocessedInput F) (statement : Statement F)
    (proof : Proof F) : Except CqError Unit :=
  let s1 := transcriptInit ++ [statement.f, common.t2]
  let _β := hash s1
  let s2 := s1 ++ [proof.a_c, proof.m_c]
  let γ := hash s2
  let s3 := s2 ++ [proof.f_eval, proof.a_eval, proof.m_eval, proof.t_eval]
  let η := hash s3
  let v := proof.f_eval + η * proof.a_eval + η ^ 2 * proof.m_eval
    + η ^ 3 * proof.t_eval
  let c := statement.f + η * proof.a_c + η ^ 2 * proof.m_c
    + η ^ 3 * common.t2
  let g2_one := vk.srs_g2.getD 0 0
  let g2_tau := vk.srs_g2.getD 1 0
  if c - v = proof.w * (g2_tau - γ * g2_one) then .ok ()
  else .error CqError.VerificationError

end Verifier

/-! ## The benchmark harness (`src/main.rs`, lines 75–118)

`measure_cq` seeds its randomness with `ark_std::test_rng()`, a
deterministic generator with a fixed hard-coded seed. External library
behaviour is modelled as: `test_rng` is a fixed concrete stream of
naturals, `Rng::gen_range(lo..hi)` draws `lo + r % (hi - lo)` from the
next stream value (a value uniform in the half-open range `[lo, hi)`),
and field sampling embeds stream values through a parameter `toF`. -/

/-- Modelled from `ark_std::test_rng()` (external, fixed seed): a concrete
deterministic stream of naturals; the `j`-th draw is `test_rng j`. -/
def test_rng (j : ℕ) : ℕ :=
  (6364136223846793005 * j + 1442695040888963407) % 2 ^ 64

/-- Modelled from `rand`'s `Rng::gen_range(lo..hi)` (external): a draw in
the half-open range `[lo, hi)` obtained from one stream value `r`. -/
def gen_range (lo hi r : ℕ) : ℕ :=
  lo + r % (hi - lo)

/-- The subvector indices `measure_cq` samples
(`src/main.rs`, lines 83–84): `witness_size` draws of
`rng.gen_range(0..n - 1)` from the given stream. -/
def sampleSubvectorIndices (n witness_size : ℕ) (r : ℕ → ℕ) : List ℕ :=
  (List.range witness_size).map (fun j => gen_range 0 (n - 1) (r j))

/-- The subvector indices of a `measure_cq` run: sampled from the
fixed-seed `test_rng` stream. -/
def harness_indices (table_size lookup_size : ℕ) : List ℕ :=
  sampleSubvectorIndices table_size lookup_size test_rng

/-- The `prepare` call a `measure_cq` run performs: the subvector indices
come from the fixed-seed stream, and the rng draws after the index
sampling (trapdoor, table values) are the subsequent stream values
embedded into the field by `toF`. -/
def harness_prepare (interp : List F → List F) (domain : ℕ → F) (toF : ℕ → F)
    (table_size lookup_size : ℕ) : Except CqError (PrepareResult F) :=
  prepare interp domain table_size (harness_indices table_size lookup_size)
    (toF (test_rng lookup_size))
    (fun i => toF (test_rng (lookup_size + 1 + i)))

/-- Embedded from `src/main.rs` (`fn measure_cq`, minus timing and
printing): sample the subvector indices from the fixed-seed rng, run
`prepare`, `Prover::prove` and `Verifier::verify`; the driver's final
`assert!(res.is_ok())` corresponds to this returning `.ok ()`. -/
def measure_cq (hash : List F → F) [DecidableEq F] (interp : List F → List F)
    (domain : ℕ → F) (toF : ℕ → F) (table_size lookup_size : ℕ) :
    Except CqError Unit := do
  let r ← harness_prepare interp domain toF table_size lookup_size
  let proof ← Prover.prove hash interp r.pk r.index r.table r.witness r.statement
  Verifier.verify hash r.vk r.common r.statement proof

/-- Embedded from `src/main.rs` (`fn measure_cprange`): forwards `B` as the
table size and `n` as the lookup size. -/
def measure_cprange (hash : List F → F) [DecidableEq F]
    (interp : List F → List F) (domain : ℕ → F) (toF : ℕ → F)
    (B n : ℕ) : Except CqError Unit :=
  measure_cq hash interp domain toF B n

/-- Embedded from `src/main.rs` (`fn main`): `let two: usize = 2;`. -/
def main_two : ℕ := 2

/-- Embedded from `src/main.rs` (`fn main`): `let B = two.pow(16);`. -/
def main_B : ℕ := main_two ^ 16

/-- Embedded from `src/main.rs` (`fn main`): `let d = two.pow(6);` (the
adjacent comment says "should be roughly 1K"). -/
def main_d : ℕ := main_two ^ 6

/-- Embedded from `src/main.rs` (`fn main`): `let m = two.pow(6);` (the
adjacent comment says "should be roughly 2K"). -/
def main_m : ℕ := main_two ^ 6

/-- Embedded from `src/main.rs` (`fn main`):
`let num_cpranges = 2*d*m;` (the adjacent comment says "should be
roughly 4M"). -/
def main_num_cpranges : ℕ := 2 * main_d * main_m

/-- Embedded from `src/main.rs` (`fn main`): the single benchmark call
`measure_cprange(B, num_cpranges)`, so the table size is `main_B` and the
lookup (witness) size is `main_num_cpranges`. -/
def main_run (hash : List F → F) [DecidableEq F] (interp : List F → List F)
    (domain : ℕ → F) (toF : ℕ → F) : Except CqError Unit :=
  measure_cprange hash interp domain toF main_B main_num_cpranges

/-- The table values `prepare` samples for a table of size `n` from the
rng stream `tv`. -/
def tableValuesOf (n : ℕ) (tv : ℕ → F) : List F :=
  (List.range n).map tv

/-- The witness values `prepare` builds: the table values at the subvector
indices (`src/main.rs`, line 62). -/
def witnessValuesOf (n : ℕ) (subvector_indices : List ℕ) (tv : ℕ → F) :
    List F :=
  subvector_indices.map (fun i => (tableValuesOf n tv).getD i 0)

/-! ## Basic lemmas about the polynomial and commitment layer -/

theorem evalPoly_nil (x : F) : evalPoly ([] : List F) x = 0 := rfl

theorem evalPoly_cons (a : F) (p : List F) (x : F) :
    evalPoly (a :: p) x = a + x * evalPoly p x := rfl

theorem evalPoly_polyAdd (p q : List F) (x : F) :
    evalPoly (polyAdd p q) x = evalPoly p x + evalPoly q x := by
  induction p generalizing q with
  | nil => simp [polyAdd, evalPoly]
  | cons a p ih =>
    cases q with
    | nil => simp [polyAdd, evalPoly]
    | cons b q =>
      simp only [polyAdd, evalPoly_cons, ih]
      ring

theorem evalPoly_polySmul (c : F) (p : List F) (x : F) :
    evalPoly (polySmul c p) x = c * evalPoly p x := by
  induction p with
  | nil => simp [polySmul, evalPoly]
  | cons a p ih =>
    simp only [polySmul, List.map_cons, evalPoly_cons] at ih ⊢
    rw [ih]
    ring

/-- The defining identity of the opening quotient: for every evaluation
point `t`, `q(t) * (t - x) = p(t) - p(x)` where `q = quotientAt p x`. -/
theorem evalPoly_quotientAt (p : List F) (x t : F) :
    evalPoly (quotientAt p x) t * (t - x) = evalPoly p t - evalPoly p x := by
  induction p with
  | nil => simp [quotientAt, evalPoly]
  | cons a p ih =>
    cases p with
    | nil => simp [quotientAt, evalPoly]
    | cons b q =>
      simp only [quotientAt, evalPoly_cons] at ih ⊢
      linear_combination t * ih

theorem length_quotientAt (p : List F) (x : F) :
    (quotientAt p x).length = p.length - 1 := by
  induction p with
  | nil => rfl
  | cons a p ih =>
    cases p with
    | nil => rfl
    | cons b q => simpa [quotientAt] using ih

theorem length_polyAdd (p q : List F) :
    (polyAdd p q).length = max p.length q.length := by
  induction p generalizing q with
  | nil => simp [polyAdd]
  | cons a p ih =>
    cases q with
    | nil => simp [polyAdd]
    | cons b q => simp [polyAdd, ih, Nat.succ_max_succ]

theorem length_polySmul (c : F) (p : List F) :
    (polySmul c p).length = p.length := by simp [polySmul]

theorem length_srsOfTau (τ : F) (n : ℕ) : (srsOfTau τ n).length = n := by
  simp [srsOfTau]

theorem one_le_of_isPow2 {n : ℕ} (h : isPow2 n = true) : 1 ≤ n := by
  cases n with
  | zero => simp [isPow2] at h
  | succ m => exact Nat.succ_le_succ (Nat.zero_le m)

theorem zipWith_mul_map_left (τ : F) (q l : List F) :
    List.zipWith (fun a s => a * s) q (l.map (fun z => τ * z))
      = (List.zipWith (fun a s => a * s) q l).map (fun z => τ * z) := by
  induction q generalizing l with
  | nil => simp
  | cons a q ih =>
    cases l with
    | nil => simp
    | cons b l => simp [ih]; ring

theorem sum_map_mul_left (τ : F) (l : List F) :
    (l.map (fun z => τ * z)).sum = τ * l.sum := by
  induction l with
  | nil => simp
  | cons a l ih => simp [ih]; ring

theorem srsOfTau_succ (τ : F) (m : ℕ) :
    srsOfTau τ (m + 1) = 1 :: (srsOfTau τ m).map (fun z => τ * z) := by
  simp only [srsOfTau, List.range_succ_eq_map, List.map_cons, pow_zero,
    List.map_map]
  congr 1
  apply List.map_congr_left
  intro i _
  simp [pow_succ]
  ring

theorem commit_g1_eq_eval (τ : F) (n : ℕ) (p : List F) (h : p.length ≤ n) :
    Kzg.commit_g1 (srsOfTau τ n) p = evalPoly p τ := by
  induction p generalizing n with
  | nil => simp [Kzg.commit_g1, evalPoly]
  | cons a q ih =>
    cases n with
    | zero => simp at h
    | succ m =>
      have hq : q.length ≤ m := Nat.succ_le_succ_iff.mp h
      rw [srsOfTau_succ]
      simp only [Kzg.commit_g1, List.zipWith_cons_cons, List.sum_cons, mul_one]
      rw [zipWith_mul_map_left, sum_map_mul_left]
      have := ih m hq
      simp only [Kzg.commit_g1] at this
      rw [this, evalPoly_cons]

theorem commit_g2_eq_eval (τ : F) (n : ℕ) (p : List F) (h : p.length ≤ n) :
    Kzg.commit_g2 (srsOfTau τ n) p = evalPoly p τ :=
  commit_g1_eq_eval τ n p h

theorem commit_g1_nil (srs : List F) : Kzg.commit_g1 srs ([] : List F) = 0 :=
  rfl

theorem getD_take {α : Type} (l : List α) (k i : ℕ) (d : α) (h : i < k) :
    (l.take k).getD i d = l.getD i d := by
  induction l generalizing k i with
  | nil => simp
  | cons a l ih =>
    cases k with
    | zero => omega
    | succ k =>
      cases i with
      | zero => simp
      | succ i =>
        simp only [List.take_succ_cons, List.getD_cons_succ]
        exact ih k i (Nat.lt_of_succ_lt_succ h)

theorem getD_srsOfTau (τ : F) (N i : ℕ) (h : i < N) :
    (srsOfTau τ N).getD i 0 = τ ^ i := by
  have hlen : i < (srsOfTau τ N).length := by
    rw [length_srsOfTau]; exact h
  rw [List.getD_eq_getElem _ _ hlen]
  simp [srsOfTau]

theorem length_polyCombine_le (ρs : List F) (ps : List (List F)) (k : ℕ)
    (h : ∀ p ∈ ps, p.length ≤ k) : (polyCombine ρs ps).length ≤ k := by
  induction ρs generalizing ps with
  | nil => simp [polyCombine]
  | cons ρ ρs ih =>
    cases ps with
    | nil => simp [polyCombine]
    | cons p ps =>
      simp only [polyCombine, List.zipWith_cons_cons, List.foldr_cons]
      rw [length_polyAdd]
      refine max_le ?_ ?_
      · rw [length_polySmul]
        exact h p (List.mem_cons_self p ps)
      · exact ih ps (fun q hq => h q (List.mem_cons_of_mem p hq))

theorem evalPoly_polyCombine (ρs : List F) (ps : List (List F)) (x : F) :
    evalPoly (polyCombine ρs ps) x
      = (List.zipWith (fun ρ p => ρ * evalPoly p x) ρs ps).sum := by
  induction ρs generalizing ps with
  | nil => simp [polyCombine, evalPoly]
  | cons ρ ρs ih =>
    cases ps with
    | nil => simp [polyCombine, evalPoly]
    | cons p ps =>
      simp only [polyCombine, List.zipWith_cons_cons, List.foldr_cons,
        List.sum_cons] at ih ⊢
      rw [evalPoly_polyAdd, evalPoly_polySmul, ih]

theorem getD_map_commit (τ : F) (N : ℕ) (qpolys : List (List F)) (i : ℕ)
    (h : ∀ p ∈ qpolys, p.length ≤ N) :
    (qpolys.map (Kzg.commit_g1 (srsOfTau τ N))).getD i 0
      = evalPoly (qpolys.getD i []) τ := by
  by_cases hi : i < qpolys.length
  · have hi' : i < (qpolys.map (Kzg.commit_g1 (srsOfTau τ N))).length := by
      simpa using hi
    rw [List.getD_eq_getElem _ _ hi', List.getD_eq_getElem _ _ hi,
      List.getElem_map]
    exact commit_g1_eq_eval τ N _ (h _ (List.getElem_mem hi))
  · have hge : qpolys.length ≤ i := Nat.le_of_not_lt hi
    rw [List.getD_eq_default _ _ (by simpa using hge),
      List.getD_eq_default _ _ hge]
    simp [evalPoly]

theorem zipWith_agg_eq (τ : F) (N : ℕ) (pows : List F) (rows : List ℕ)
    (qpolys : List (List F)) (h : ∀ p ∈ qpolys, p.length ≤ N) :
    List.zipWith
        (fun ρ i => ρ * (qpolys.map (Kzg.commit_g1 (srsOfTau τ N))).getD i 0)
        pows rows
      = List.zipWith (fun ρ p => ρ * evalPoly p τ) pows
          (rows.map (fun i => qpolys.getD i [])) := by
  rw [List.zipWith_map_right]
  induction pows generalizing rows with
  | nil => simp
  | cons ρ pows ih =>
    cases rows with
    | nil => simp
    | cons r rows =>
      simp only [List.zipWith_cons_cons]
      rw [getD_map_commit τ N qpolys r h, ih rows]

/-! ## The shape of a successful `prepare` -/

/-- For a supported table size, `prepare` succeeds and its output has the
shape read off from `src/main.rs`: the G1 SRS of length `(n-1)+1 = n`
becomes the ProvingKey, the witness values are the table values at the
subvector indices, and the statement is the commitment to the witness
polynomial. -/
theorem prepare_eq_ok (interp : List F → List F) (domain : ℕ → F)
    (n : ℕ) (idx : List ℕ) (τ : F) (tv : ℕ → F) (hn : isPow2 n = true) :
    prepare interp domain n idx τ tv = .ok
      { table := ⟨n, tableValuesOf n tv⟩
        index := Index.gen interp domain (srsOfTau τ n) (srsOfTau τ (n + 1))
          ⟨n, tableValuesOf n tv⟩
        statement :=
          ⟨Kzg.commit_g1 (srsOfTau τ n) (interp (witnessValuesOf n idx tv))⟩
        common := ⟨Kzg.commit_g2 (srsOfTau τ (n + 1)) (interp (tableValuesOf n tv))⟩
        pk := ⟨srsOfTau τ n⟩
        vk := ⟨(srsOfTau τ (n + 1)).take (idx.length + 1), n, idx.length⟩
        witness := ⟨idx.length, witnessValuesOf n idx tv,
          interp (witnessValuesOf n idx tv)⟩ } := by
  have h1 : 1 ≤ n := one_le_of_isPow2 hn
  have hsub : n - 1 + 1 = n := Nat.sub_add_cancel h1
  have hlen : ((List.range n).map tv).length = n := by simp
  simp [prepare, setup_from_rng, hsub, Table.new, hlen, hn, Witness.new,
    VerifierKey.new, Index.compute_common, tableValuesOf, witnessValuesOf,
    Bind.bind, Except.bind, Pure.pure, Except.pure]

/-- The batched pairing equality of the honest run: with the commitments
computed from the SRS powers and the evaluations computed from the same
polynomials the prover opened, the verifier's combined check holds for
every challenge pair `γ`, `η`, every batching-power list and every row
assignment. -/
theorem honest_pairing_check (τ γ η : F) (n M : ℕ) (domain : ℕ → F)
    (f mpoly t : List F) (pows : List F) (rows : List ℕ)
    (hf : f.length ≤ n) (hm : mpoly.length ≤ n) (ht : t.length ≤ n)
    (h1n : 1 ≤ n) (hM : 1 ≤ M) :
    Kzg.commit_g1 (srsOfTau τ n) f
        + η * (List.zipWith (fun ρ i => ρ *
            (((List.range n).map (fun i => quotientAt t (domain i))).map
              (Kzg.commit_g1 (srsOfTau τ n))).getD i 0) pows rows).sum
        + η ^ 2 * Kzg.commit_g1 (srsOfTau τ n) mpoly
        + η ^ 3 * Kzg.commit_g2 (srsOfTau τ (n + 1)) t
      - (evalPoly f γ
          + η * evalPoly (polyCombine pows (rows.map (fun i =>
              ((List.range n).map (fun i => quotientAt t (domain i))).getD i []))) γ
          + η ^ 2 * evalPoly mpoly γ + η ^ 3 * evalPoly t γ)
      = Kzg.commit_g1 (srsOfTau τ n)
          (quotientAt (polyAdd f (polyAdd
            (polySmul η (polyCombine pows (rows.map (fun i =>
              ((List.range n).map (fun i => quotientAt t (domain i))).getD i []))))
            (polyAdd (polySmul (η ^ 2) mpoly) (polySmul (η ^ 3) t)))) γ)
        * (((srsOfTau τ (n + 1)).take (M + 1)).getD 1 0
            - γ * ((srsOfTau τ (n + 1)).take (M + 1)).getD 0 0) := by
  have hqmem : ∀ p ∈ (List.range n).map (fun i => quotientAt t (domain i)),
      p.length ≤ n := by
    intro p hp
    simp only [List.mem_map] at hp
    obtain ⟨i, _, rfl⟩ := hp
    rw [length_quotientAt]
    omega
  rw [zipWith_agg_eq τ n pows rows _ hqmem, ← evalPoly_polyCombine]
  set aq : List F := polyCombine pows (rows.map (fun i =>
    ((List.range n).map (fun i => quotientAt t (domain i))).getD i []))
    with haqdef
  have haqlen : aq.length ≤ n := by
    rw [haqdef]
    refine length_polyCombine_le _ _ _ ?_
    intro p hp
    simp only [List.mem_map] at hp
    obtain ⟨i, _, rfl⟩ := hp
    by_cases hi : i < ((List.range n).map (fun i => quotientAt t (domain i))).length
    · rw [List.getD_eq_getElem _ _ hi]
      exact hqmem _ (List.getElem_mem hi)
    · rw [List.getD_eq_default _ _ (Nat.le_of_not_lt hi)]
      exact Nat.zero_le n
  set P : List F := polyAdd f (polyAdd (polySmul η aq)
    (polyAdd (polySmul (η ^ 2) mpoly) (polySmul (η ^ 3) t))) with hPdef
  have hPlen : P.length ≤ n := by
    rw [hPdef, length_polyAdd, length_polyAdd, length_polyAdd, length_polySmul,
      length_polySmul, length_polySmul]
    omega
  have hwlen : (quotientAt P γ).length ≤ n := by
    rw [length_quotientAt]
    omega
  rw [commit_g1_eq_eval τ n f hf, commit_g1_eq_eval τ n mpoly hm,
    commit_g2_eq_eval τ (n + 1) t (ht.trans (Nat.le_succ n)),
    commit_g1_eq_eval τ n (quotientAt P γ) hwlen]
  rw [getD_take _ _ _ _ (show 1 < M + 1 by omega),
    getD_take _ _ _ _ (show 0 < M + 1 by omega),
    getD_srsOfTau τ (n + 1) 1 (by omega),
    getD_srsOfTau τ (n + 1) 0 (by omega), pow_one, pow_zero]
  have h1 : evalPoly P τ = evalPoly f τ + η * evalPoly aq τ
      + η ^ 2 * evalPoly mpoly τ + η ^ 3 * evalPoly t τ := by
    rw [hPdef, evalPoly_polyAdd, evalPoly_polyAdd, evalPoly_polyAdd,
      evalPoly_polySmul, evalPoly_polySmul, evalPoly_polySmul]
    ring
  have h2 : evalPoly P γ = evalPoly f γ + η * evalPoly aq γ
      + η ^ 2 * evalPoly mpoly γ + η ^ 3 * evalPoly t γ := by
    rw [hPdef, evalPoly_polyAdd, evalPoly_polyAdd, evalPoly_polyAdd,
      evalPoly_polySmul, evalPoly_polySmul, evalPoly_polySmul]
    ring
  rw [← h1, ← h2]
  linear_combination (-1 : F) * evalPoly_quotientAt P γ τ

/-! ## Claim theorems -/

/-- C2: for every supported table size `n`, the ProvingKey built by
`prepare` holds G1 powers of length at least `n`, even though `prepare`
passes `n - 1` as the G1 size argument to the setup (the bound `d` yields
the `d + 1` powers `τ^0 … τ^d`). -/
theorem claim_pk_srs_length (interp : List F → List F) (domain : ℕ → F)
    (n : ℕ) (idx : List ℕ) (τ : F) (tv : ℕ → F) (hn : isPow2 n = true) :
    ∃ r : PrepareResult F,
      prepare interp domain n idx τ tv = .ok r ∧ n ≤ r.pk.srs_g1.length := by
  refine ⟨_, prepare_eq_ok interp domain n idx τ tv hn, ?_⟩
  simp [length_srsOfTau]

/-- Witness for C2 at `n = 2`, `idx = [0]` over `ℤ`. -/
theorem claim_pk_srs_length_witness :
    ∃ r : PrepareResult ℤ,
      prepare id (fun _ => 0) 2 [0] 0 (fun _ => 0) = .ok r ∧
      2 ≤ r.pk.srs_g1.length :=
  claim_pk_srs_length id (fun _ => 0) 2 [0] 0 (fun _ => 0) (by decide)

/-- C3: in the single benchmark invocation of `main`, the table size is
`2^16 = 65536` and the witness size is `2 * 2^6 * 2^6 = 8192`, which is
strictly below the table size and lies in the thousands (the adjacent
comments' "roughly 1K / 2K / 4M" estimates do not match: the factors are
64 and 64, and the product is 8192). -/
theorem claim_main_sizes :
    main_B = 65536 ∧ main_num_cpranges = 2 * 2 ^ 6 * 2 ^ 6 ∧
    main_num_cpranges = 8192 ∧ main_num_cpranges < main_B ∧
    1000 ≤ main_num_cpranges ∧ main_num_cpranges < 10000 ∧
    main_d = 64 ∧ main_m = 64 := by
  norm_num [main_B, main_two, main_num_cpranges, main_d, main_m]

/-- C4: for every table size and every index list whose entries are valid
indices into the table, each witness value built by `prepare` is exactly
the table value at the corresponding index, and hence occurs in the
table. -/
theorem claim_witness_values_from_table (interp : List F → List F)
    (domain : ℕ → F) (n : ℕ) (idx : List ℕ) (τ : F) (tv : ℕ → F)
    (hn : isPow2 n = true) (hidx : ∀ i ∈ idx, i < n) :
    ∃ r : PrepareResult F,
      prepare interp domain n idx τ tv = .ok r ∧
      (∀ j, j < r.witness.values.length →
        r.witness.values.getD j 0
          = (tableValuesOf n tv).getD (idx.getD j 0) 0) ∧
      (∀ v ∈ r.witness.values, v ∈ r.table.values) := by
  refine ⟨_, prepare_eq_ok interp domain n idx τ tv hn, ?_, ?_⟩
  · intro j hj
    simp only [witnessValuesOf] at hj ⊢
    have hj' : j < idx.length := by simpa using hj
    rw [List.getD_eq_getElem _ _ hj, List.getElem_map,
      List.getD_eq_getElem _ _ hj']
  · intro v hv
    simp only [witnessValuesOf, List.mem_map] at hv
    obtain ⟨i, hi, rfl⟩ := hv
    have hin : i < (tableValuesOf n tv).length := by
      simpa [tableValuesOf] using hidx i hi
    rw [List.getD_eq_getElem _ _ hin]
    exact List.getElem_mem hin

/-- Witness for C4 at `n = 2`, `idx = [1, 0]` over `ℤ` with table values
`tv i = i`. -/
theorem claim_witness_values_from_table_witness :
    ∃ r : PrepareResult ℤ,
      prepare id (fun _ => 0) 2 [1, 0] 0 (fun i => (i : ℤ)) = .ok r ∧
      (∀ j, j < r.witness.values.length →
        r.witness.values.getD j 0
          = (tableValuesOf 2 (fun i => (i : ℤ))).getD ([1, 0].getD j 0) 0) ∧
      (∀ v ∈ r.witness.values, v ∈ r.table.values) :=
  claim_witness_values_from_table id (fun _ => 0) 2 [1, 0] 0 (fun i => (i : ℤ))
    (by decide) (by decide)

/-- C5: the Statement assembled by `prepare` is exactly the KZG G1
commitment, under the ProvingKey's SRS powers, of the polynomial
interpolating the witness values — and nothing else (the `Statement`
record has the single field `f`). -/
theorem claim_statement_is_commitment (interp : List F → List F)
    (domain : ℕ → F) (n : ℕ) (idx : List ℕ) (τ : F) (tv : ℕ → F)
    (hn : isPow2 n = true) :
    ∃ r : PrepareResult F,
      prepare interp domain n idx τ tv = .ok r ∧
      r.statement = ⟨Kzg.commit_g1 r.pk.srs_g1 r.witness.f⟩ ∧
      r.witness.f = interp r.witness.values :=
  ⟨_, prepare_eq_ok interp domain n idx τ tv hn, rfl, rfl⟩

/-- Witness for C5 at `n = 2`, `idx = [1]` over `ℤ`. -/
theorem claim_statement_is_commitment_witness :
    ∃ r : PrepareResult ℤ,
      prepare id (fun _ => 0) 2 [1] 3 (fun i => (i : ℤ)) = .ok r ∧
      r.statement = ⟨Kzg.commit_g1 r.pk.srs_g1 r.witness.f⟩ ∧
      r.witness.f = id r.witness.values :=
  claim_statement_is_commitment id (fun _ => 0) 2 [1] 3 (fun i => (i : ℤ))
    (by decide)

/-- C6: the protocol domain separator is the fixed versioned ASCII tag
`PROTOCOL_NAME = "CQ-1.0"` (bytes `0x43 0x51 0x2D 0x31 0x2E 0x30`), and
the transcript's initial state `transcriptInit` — the seed used by both
`Prover.prove` and `Verifier.verify`, which reference this single
constant — is its bytewise embedding, the same in every call. -/
theorem claim_protocol_name :
    PROTOCOL_NAME = [67, 81, 45, 49, 46, 48] ∧
    PROTOCOL_NAME = "CQ-1.0".toList.map Char.toNat ∧
    ∀ (G : Type) (inst : CommRing G),
      @transcriptInit G inst = PROTOCOL_NAME.map (fun b => (b : G)) :=
  ⟨by decide, rfl, fun G inst => rfl⟩

/-- C8: every subvector index `measure_cq` samples comes from the
half-open range `[0, n-1)`: each is `< n - 1`, so the last table row's
index `n - 1` is never sampled. -/
theorem claim_subvector_index_range (n m : ℕ) (r : ℕ → ℕ) (hn : 2 ≤ n) :
    (∀ i ∈ sampleSubvectorIndices n m r, i < n - 1) ∧
    (n - 1) ∉ sampleSubvectorIndices n m r ∧
    (∀ i ∈ harness_indices n m, i < n - 1) ∧
    (n - 1) ∉ harness_indices n m := by
  have key : ∀ (s : ℕ → ℕ), ∀ i ∈ sampleSubvectorIndices n m s, i < n - 1 := by
    intro s i hi
    simp only [sampleSubvectorIndices, List.mem_map] at hi
    obtain ⟨j, _, rfl⟩ := hi
    simp only [gen_range, Nat.sub_zero, Nat.zero_add]
    exact Nat.mod_lt _ (by omega)
  refine ⟨key r, fun h => absurd (key r _ h) (lt_irrefl _),
    key test_rng, fun h => absurd (key test_rng _ h) (lt_irrefl _)⟩

/-- Witness for C8 at `n = 8`, `m = 3`. -/
theorem claim_subvector_index_range_witness :
    (∀ i ∈ sampleSubvectorIndices 8 3 (fun j => j), i < 8 - 1) ∧
    (8 - 1) ∉ sampleSubvectorIndices 8 3 (fun j => j) ∧
    (∀ i ∈ harness_indices 8 3, i < 8 - 1) ∧
    (8 - 1) ∉ harness_indices 8 3 :=
  claim_subvector_index_range 8 3 (fun j => j) (by decide)

/-- C9: under the driver's parameters (table size `2^16`, a non-empty
index list with entries below `n - 1`), the `Result`s `prepare` unwraps —
`Table::new` and `Witness::new` — are both `Ok`, and `prepare` as a whole
succeeds, so the `.unwrap()` calls never panic. -/
theorem claim_prepare_unwraps_ok (interp : List F → List F) (domain : ℕ → F)
    (idx : List ℕ) (τ : F) (tv : ℕ → F)
    (_hne : idx ≠ []) (_hidx : ∀ i ∈ idx, i < main_B - 1) :
    Table.new (tableValuesOf main_B tv)
        = .ok ⟨main_B, tableValuesOf main_B tv⟩ ∧
    Witness.new interp (witnessValuesOf main_B idx tv)
        = .ok ⟨idx.length, witnessValuesOf main_B idx tv,
            interp (witnessValuesOf main_B idx tv)⟩ ∧
    ∃ r : PrepareResult F, prepare interp domain main_B idx τ tv = .ok r := by
  have hp : isPow2 main_B = true := by decide
  have hlen : (tableValuesOf (F := F) main_B tv).length = main_B := by
    simp [tableValuesOf]
  refine ⟨?_, ?_, _, prepare_eq_ok interp domain main_B idx τ tv hp⟩
  · simp [Table.new, hlen, hp]
  · simp [Witness.new, witnessValuesOf]

/-- Witness for C9 at `idx = [0]` over `ℤ`. -/
theorem claim_prepare_unwraps_ok_witness :
    Table.new (tableValuesOf main_B (fun _ => (0 : ℤ)))
        = .ok ⟨main_B, tableValuesOf main_B (fun _ => (0 : ℤ))⟩ ∧
    Witness.new id (witnessValuesOf main_B [0] (fun _ => (0 : ℤ)))
        = .ok ⟨[0].length, witnessValuesOf main_B [0] (fun _ => (0 : ℤ)),
            id (witnessValuesOf main_B [0] (fun _ => (0 : ℤ)))⟩ ∧
    ∃ r : PrepareResult ℤ,
      prepare id (fun _ => 0) main_B [0] 0 (fun _ => 0) = .ok r :=
  claim_prepare_unwraps_ok id (fun _ => 0) [0] 0 (fun _ => 0)
    (by decide) (by decide)

/-- C7: proving and verification are deterministic functions of their
declared inputs (the Rust signatures take no randomness argument beyond
the Fiat-Shamir construction, here the explicit `hash`): two runs over
identical inputs and identical external randomness produce identical
(byte-identical, as the model's `Proof` is a plain value) proofs and
identical accept/reject outcomes. -/
theorem claim_prove_verify_deterministic [DecidableEq F]
    (hash hash' : List F → F) (interp interp' : List F → List F)
    (pk pk' : ProvingKey F) (index index' : Index F) (table table' : Table F)
    (witness witness' : Witness F) (statement statement' : Statement F)
    (vk vk' : VerifierKey F) (common common' : CommonPreprocessedInput F)
    (proof proof' : Proof F)
    (h1 : hash = hash') (h2 : interp = interp') (h3 : pk = pk')
    (h4 : index = index') (h5 : table = table') (h6 : witness = witness')
    (h7 : statement = statement') (h8 : vk = vk') (h9 : common = common')
    (h10 : proof = proof') :
    Prover.prove hash interp pk index table witness statement
      = Prover.prove hash' interp' pk' index' table' witness' statement' ∧
    Verifier.verify hash vk common statement proof
      = Verifier.verify hash' vk' common' statement' proof' := by
  subst h1 h2 h3 h4 h5 h6 h7 h8 h9 h10
  exact ⟨rfl, rfl⟩

/-- Witness for C7 at concrete inputs over `ℤ`. -/
theorem claim_prove_verify_deterministic_witness :
    Prover.prove (fun _ => (0 : ℤ)) id ⟨[1]⟩ ⟨[], [], 0⟩ ⟨1, [5]⟩ ⟨1, [5], [5]⟩ ⟨5⟩
      = Prover.prove (fun _ => (0 : ℤ)) id ⟨[1]⟩ ⟨[], [], 0⟩ ⟨1, [5]⟩ ⟨1, [5], [5]⟩ ⟨5⟩ ∧
    Verifier.verify (fun _ => (0 : ℤ)) ⟨[1], 1, 1⟩ ⟨0⟩ ⟨5⟩ ⟨0, 0, 0, 0, 0, 0, 0⟩
      = Verifier.verify (fun _ => (0 : ℤ)) ⟨[1], 1, 1⟩ ⟨0⟩ ⟨5⟩ ⟨0, 0, 0, 0, 0, 0, 0⟩ :=
  claim_prove_verify_deterministic (fun _ => (0 : ℤ)) (fun _ => (0 : ℤ))
    id id ⟨[1]⟩ ⟨[1]⟩ ⟨[], [], 0⟩ ⟨[], [], 0⟩ ⟨1, [5]⟩ ⟨1, [5]⟩
    ⟨1, [5], [5]⟩ ⟨1, [5], [5]⟩ ⟨5⟩ ⟨5⟩ ⟨[1], 1, 1⟩ ⟨[1], 1, 1⟩ ⟨0⟩ ⟨0⟩
    ⟨0, 0, 0, 0, 0, 0, 0⟩ ⟨0, 0, 0, 0, 0, 0, 0⟩
    rfl rfl rfl rfl rfl rfl rfl rfl rfl rfl

/-- C10: the benchmark harness is fully deterministic across executions:
`measure_cq` draws all randomness from the fixed-seed `test_rng` stream,
so two runs with the same parameters sample the same subvector indices
and the same table values and build the same witness and Statement (the
components of `harness_prepare`'s result), and reach the same outcome. -/
theorem claim_harness_deterministic [DecidableEq F]
    (hash : List F → F) (interp : List F → List F) (domain : ℕ → F)
    (toF : ℕ → F) (ts ts' ls ls' : ℕ) (h1 : ts = ts') (h2 : ls = ls') :
    harness_indices ts ls = harness_indices ts' ls' ∧
    harness_prepare interp domain toF ts ls
      = harness_prepare interp domain toF ts' ls' ∧
    measure_cq hash interp domain toF ts ls
      = measure_cq hash interp domain toF ts' ls' := by
  subst h1 h2
  exact ⟨rfl, rfl, rfl⟩

/-- C1: completeness — for every supported table size `n` and every
witness of size `M < n` whose elements are drawn from the table (built by
`prepare` from in-range subvector indices), the full honest pipeline
(`prepare`, then `Prover.prove`, then `Verifier.verify` on the resulting
proof) yields `Ok`, as `measure_cq`'s final assertion demands. -/
theorem claim_completeness [DecidableEq F] (hash : List F → F)
    (interp : List F → List F) (domain : ℕ → F)
    (n : ℕ) (idx : List ℕ) (τ : F) (tv : ℕ → F)
    (hn : isPow2 n = true)
    (hidx : ∀ i ∈ idx, i < n)
    (hm1 : 1 ≤ idx.length)
    (hmn : idx.length < n)
    (hinterp : ∀ l, (interp l).length ≤ l.length) :
    ∃ r : PrepareResult F,
      prepare interp domain n idx τ tv = .ok r ∧
      ∃ proof : Proof F,
        Prover.prove hash interp r.pk r.index r.table r.witness r.statement
          = .ok proof ∧
        Verifier.verify hash r.vk r.common r.statement proof = .ok () := by
  have h1n : 1 ≤ n := one_le_of_isPow2 hn
  have hflen : (interp (witnessValuesOf n idx tv)).length ≤ n := by
    refine le_trans (hinterp _) ?_
    simp only [witnessValuesOf, List.length_map]
    omega
  have htlen : (interp (tableValuesOf n tv)).length ≤ n := by
    refine le_trans (hinterp _) ?_
    simp [tableValuesOf]
  have hmem : ∀ v ∈ witnessValuesOf n idx tv, v ∈ tableValuesOf n tv := by
    intro v hv
    simp only [witnessValuesOf, List.mem_map] at hv
    obtain ⟨i, hi, rfl⟩ := hv
    have hin : i < (tableValuesOf (F := F) n tv).length := by
      simpa [tableValuesOf] using hidx i hi
    rw [List.getD_eq_getElem _ _ hin]
    exact List.getElem_mem hin
  refine ⟨_, prepare_eq_ok interp domain n idx τ tv hn, ?_⟩
  simp only [Prover.prove, Index.gen]
  split_ifs with hdeg hmdeg
  · refine ⟨_, rfl, ?_⟩
    simp only [Verifier.verify]
    split_ifs with hcheck
    · rfl
    · refine absurd ?_ hcheck
      exact honest_pairing_check τ _ _ n idx.length domain _ _ _ _ _
        hflen (by simpa [length_srsOfTau] using hmdeg) htlen h1n hm1
  · exact absurd (le_trans (hinterp _) (by simp [length_srsOfTau])) hmdeg
  · refine absurd ⟨?_, ?_⟩ hdeg
    · rw [length_srsOfTau]; exact hflen
    · rw [length_srsOfTau]; exact htlen

/-- Witness for C1 at `n = 4`, `idx = [2, 0, 1]` over `ℤ` with a sum-based
Fiat-Shamir hash. -/
theorem claim_completeness_witness :
    ∃ r : PrepareResult ℤ,
      prepare id (fun i => (i : ℤ) + 7) 4 [2, 0, 1] 5
          (fun i => 3 * (i : ℤ) + 1) = .ok r ∧
      ∃ proof : Proof ℤ,
        Prover.prove (fun l => l.sum) id r.pk r.index r.table r.witness
            r.statement = .ok proof ∧
        Verifier.verify (fun l => l.sum) r.vk r.common r.statement proof
            = .ok () :=
  claim_completeness (fun l => l.sum) id (fun i => (i : ℤ) + 7) 4 [2, 0, 1] 5
    (fun i => 3 * (i : ℤ) + 1) (by decide) (by decide) (by decide) (by decide)
    (fun l => le_rfl)
theorem claim_harness_deterministic_witness :
    harness_indices 4 2 = harness_indices 4 2 ∧
    harness_prepare (F := ℤ) id (fun _ => 0) (fun j => (j : ℤ)) 4 2
      = harness_prepare id (fun _ => 0) (fun j => (j : ℤ)) 4 2 ∧
    measure_cq (fun _ => (0 : ℤ)) id (fun _ => 0) (fun j => (j : ℤ)) 4 2
      = measure_cq (fun _ => (0 : ℤ)) id (fun _ => 0) (fun j => (j : ℤ)) 4 2 :=
  claim_harness_deterministic (fun _ => (0 : ℤ)) id (fun _ => 0)
    (fun j => (j : ℤ)) 4 4 2 2 rfl rfl

end Cq
